import Mathlib

/-!
Formal model of the core maintenance logic of the ArcGIS_Maintenance repository.

Two source files carry the algorithmic content that is verified here:

* src/src/version_management/DeleteStaleVersions.py — selection of stale
  geodatabase versions (filter_stale_versions), protection of parents that
  still have live children (has_non_stale_children and the removal pass in
  process_database), ordering of the candidates so children are deleted
  before parents (order_versions_for_deletion), and the deletion loop of
  process_database.
* src/scripts/MaintenanceOrchestrator.py — the step sequencer
  (run_maintenance_sequence) with its per-step filtering, skipping,
  configuration checks, subprocess invocation (run_module / run_script,
  both with a 3600 second timeout) and critical-failure handling.

External effects are modelled as explicit oracles: subprocess execution is a
function from a command and a timeout to an outcome, the environment is a
function from variable names to string values (empty string standing for an
unset variable, matching the falsy check in check_config_available), wall
clock durations are an oracle from steps to seconds, and version deletion is
a function from version names to a success flag.  Python dictionaries
describing versions become the Version structure; Python string operations
become operations on lists of characters.  The unbounded while loop of
order_versions_for_deletion is embedded with an explicit round counter
(fuel); the theorem for the termination claim shows that a fuel of one more
than the size of the working set is always sufficient.
-/

/-- Version record as built by get_version_details: canonical name, owner,
optional parent name, and age in days (a Python int, hence an integer). The
created timestamp is never consulted by the verified logic and is omitted. -/
structure Version where
  name : String
  owner : String
  parent : Option String
  age_days : Int
deriving DecidableEq

/-- Lower-cased character list of a string, modelling the Python str.lower
call used for case-insensitive pattern matching. -/
def lowerChars (s : String) : List Char :=
  s.toList.map Char.toLower

/-- Boolean test that the first character list is an initial segment of the
second; building block for the substring test. -/
def leadsWith : List Char → List Char → Bool
  | [], _ => true
  | _ :: _, [] => false
  | c :: cs, d :: ds => c == d && leadsWith cs ds

/-- Boolean substring containment on character lists, modelling the Python
expression p.lower() in version_name_lower. -/
def occursIn : List Char → List Char → Bool
  | pat, [] => pat.isEmpty
  | pat, d :: ds => leadsWith pat (d :: ds) || occursIn pat ds

/-- Case-insensitive substring test of a pattern against a version name. -/
def containsCI (hay pat : String) : Bool :=
  occursIn (lowerChars pat) (lowerChars hay)

/-- Embedding of filter_stale_versions (DeleteStaleVersions.py lines
97-116): keep a version when its age reaches the threshold and no exclusion
pattern occurs case-insensitively in its name. -/
def filter_stale_versions (versions : List Version) (max_age_days : Int)
    (exclude_patterns : List String) : List Version :=
  versions.filter (fun v =>
    if v.age_days < max_age_days then false
    else !(exclude_patterns.any (fun p => containsCI v.name p)))

/-- Embedding of has_non_stale_children (DeleteStaleVersions.py lines
159-173): true when some version of the full list has this name as parent
but is itself not among the stale names. -/
def has_non_stale_children (version_name : String) (stale_names : List String)
    (all_versions : List Version) : Bool :=
  all_versions.any (fun v =>
    v.parent == some version_name && !(stale_names.contains v.name))

/-- Embedding of the protection pass of process_database (DeleteStaleVersions.py
lines 218-226): the stale-name set is computed once, then every candidate with
a child outside that initial set is removed.  Iterating over the copy
stale[:] while calling stale.remove amounts to a single filter because the
verdict for an element depends only on its name and the frozen name set. -/
def protect_parents_pass (all_versions stale : List Version) : List Version :=
  let stale_names := stale.map (fun v => v.name)
  stale.filter (fun v => !(has_non_stale_children v.name stale_names all_versions))

/-- Parent reference as used when building the children map of
order_versions_for_deletion: the Python guard "if parent and parent in
children" drops a missing parent and an empty parent string. -/
def truthyParent (v : Version) : Option String :=
  match v.parent with
  | some p => if p = "" then none else some p
  | none => none

/-- Names of the versions whose (truthy) parent is the given name; this is
children[name] of order_versions_for_deletion for a candidate name. -/
def childNames (vs : List Version) (name : String) : List String :=
  (vs.filter (fun v => truthyParent v == some name)).map (fun v => v.name)

/-- One round of leaf selection (DeleteStaleVersions.py lines 144-145): the
names of the working set having no child still in the working set. -/
def leavesOf (vs : List Version) (remaining : List String) : List String :=
  remaining.filter (fun n => (childNames vs n).all (fun c => !(remaining.contains c)))

/-- While loop of order_versions_for_deletion (lines 142-154) with an
explicit round budget.  Each round either finishes (empty working set),
falls back by appending the whole working set when no leaf exists, or emits
the leaves and recurses on the rest; none is returned only when the budget
is exhausted before the loop exits. -/
def orderNamesFuel (vs : List Version) : Nat → List String → Option (List String)
  | 0, _ => none
  | fuel + 1, remaining =>
    if remaining.isEmpty then some []
    else
      let leaves := leavesOf vs remaining
      if leaves.isEmpty then some remaining
      else
        match orderNamesFuel vs fuel (remaining.filter (fun n => !(leaves.contains n))) with
        | some rest => some (leaves ++ rest)
        | none => none

/-- Name-level result of the ordering loop; a budget of one more round than
the size of the working set always suffices (proved below), so the default
value is never used. -/
def orderNames (vs : List Version) (remaining : List String) : List String :=
  (orderNamesFuel vs (remaining.length + 1) remaining).getD remaining

/-- Lookup in the version_map dictionary of order_versions_for_deletion;
a Python dict built by iteration keeps the last binding of a repeated key. -/
def lookupVersion (vs : List Version) (n : String) : Option Version :=
  vs.reverse.find? (fun v => v.name == n)

/-- Placeholder record returned by lookupVersion.getD; never reached for
names drawn from the version list itself. -/
def defaultVersion : Version :=
  { name := "", owner := "", parent := none, age_days := 0 }

/-- Embedding of order_versions_for_deletion (DeleteStaleVersions.py lines
119-156): run the leaf-first loop over the (deduplicated) name set and map
the resulting names back through the version map. -/
def order_versions_for_deletion (versions : List Version) : List Version :=
  let names := (versions.map (fun v => v.name)).dedup
  (orderNames versions names).map (fun n => (lookupVersion versions n).getD defaultVersion)

/-- One deletion attempt per planned version, in plan order, paired with the
success flag reported by the deletion oracle (delete_version returns true on
success and false on a caught ExecuteError). -/
def deletionAttempts (del : String → Bool) : List Version → List (String × Bool)
  | [] => []
  | v :: rest => (v.name, del v.name) :: deletionAttempts del rest

/-- Summary returned by process_database (DeleteStaleVersions.py lines
237-249): deleted counts the successful attempts, skipped is the rest. -/
structure DeletionSummary where
  deleted : Nat
  skipped : Nat
deriving DecidableEq

/-- Deletion loop of process_database: every planned version receives one
attempt; the counter increments exactly on success. -/
def runDeletionLoop (del : String → Bool) (plan : List Version) : DeletionSummary :=
  let deleted := (deletionAttempts del plan).countP (fun a => a.snd)
  { deleted := deleted, skipped := plan.length - deleted }

/-- Status of one recorded step of the orchestrator. -/
inductive StepStatus where
  | success
  | failed
  | skipped
deriving DecidableEq

/-- Target of a pipeline step: a Python module with arguments, a standalone
script, or nothing (the defensive else branch of the sequencer). -/
inductive Runner where
  | module (moduleName : String) (args : List String)
  | script (scriptName : String)
  | noTarget
deriving DecidableEq

/-- Pipeline step as described by the SCRIPT_SEQUENCE dictionaries of
MaintenanceOrchestrator.py: name, target, criticality and the optional
requires_config key list. -/
structure Step where
  name : String
  runner : Runner
  critical : Bool
  requires_config : Option (List String)
deriving DecidableEq

/-- Recorded outcome of one step.  The Python dictionaries carry different
key sets per branch, modelled with optional fields: a manual skip records a
duration of 0 and no reason, a configuration skip records a reason and no
duration, an executed step records duration and output preview. -/
structure StepResult where
  name : String
  status : StepStatus
  duration : Option Nat
  reason : Option String
  output_preview : Option String
deriving DecidableEq

/-- Aggregate run report (start and end timestamps are pure clock reads and
are omitted from the model). -/
structure RunReport where
  steps : List StepResult
  success : Bool
  critical_failure : Bool
deriving DecidableEq

/-- Outcome of one subprocess.run call: normal completion with return code
and captured streams, expiry of the given timeout, or another exception. -/
inductive SubOutcome where
  | completed (returncode : Int) (stdout stderr : String)
  | timedOut
  | raised (msg : String)
deriving DecidableEq

/-- Timeout, in seconds, passed to every subprocess.run call of the
orchestrator (MaintenanceOrchestrator.py lines 137 and 165). -/
def SUBPROCESS_TIMEOUT : Nat := 3600

/-- Embedding of run_module (MaintenanceOrchestrator.py lines 115-145); the
interpreter path and filesystem path building are abstracted into the
command list.  A timeout is converted into a failure carrying the fixed
reason string; any other exception is converted into a failure carrying its
message. -/
def run_module (sub : List String → Nat → SubOutcome) (module_name : String)
    (args : List String) : Bool × String :=
  match sub ("python" :: module_name :: args) SUBPROCESS_TIMEOUT with
  | SubOutcome.completed rc out err => (rc == 0, out ++ err)
  | SubOutcome.timedOut => (false, "Script timed out after 1 hour")
  | SubOutcome.raised msg => (false, msg)

/-- Embedding of run_script (MaintenanceOrchestrator.py lines 148-173),
identical to run_module apart from the command construction. -/
def run_script (sub : List String → Nat → SubOutcome) (script_name : String) :
    Bool × String :=
  match sub ["python", script_name] SUBPROCESS_TIMEOUT with
  | SubOutcome.completed rc out err => (rc == 0, out ++ err)
  | SubOutcome.timedOut => (false, "Script timed out after 1 hour")
  | SubOutcome.raised msg => (false, msg)

/-- Step dispatch of the sequencer (lines 226-231): a module target is run
through run_module, a script target through run_script, and a step with
neither is an immediate failure. -/
def invokeStep (sub : List String → Nat → SubOutcome) (step : Step) : Bool × String :=
  match step.runner with
  | Runner.module m a => run_module sub m a
  | Runner.script s => run_script sub s
  | Runner.noTarget => (false, "No module or script specified")

/-- Embedding of check_config_available (lines 100-112) against an
environment oracle; the empty string models an unset or empty variable,
both falsy in the Python check. -/
def check_config_available (env : String → String) (vars : List String) : Bool :=
  vars.all (fun v => env v != "")

/-- Truthiness of the steps argument as used in the guard "if steps and
step_name not in steps": a missing list and an empty list are both falsy. -/
def providedNonempty : Option (List String) → Bool
  | none => false
  | some [] => false
  | some (_ :: _) => true

/-- Filter guard of the sequencer (line 198): a step is dropped from the run
when a truthy selection list is given and does not contain its name. -/
def filteredOut (selected : Option (List String)) (step : Step) : Bool :=
  providedNonempty selected && !((selected.getD []).contains step.name)

/-- Guard of the configuration branch (lines 210-211). -/
def needsConfigSkip (env : String → String) (step : Step) : Bool :=
  match step.requires_config with
  | some vars => !(check_config_available env vars)
  | none => false

/-- Record appended for a manually skipped step (lines 203-207): status
skipped, duration 0, and no reason key. -/
def skipResult (s : Step) : StepResult :=
  { name := s.name, status := StepStatus.skipped, duration := some 0
    reason := none, output_preview := none }

/-- Record appended for a step skipped for missing configuration (lines
213-217): status skipped, reason string, and no duration key. -/
def configSkipResult (s : Step) : StepResult :=
  { name := s.name, status := StepStatus.skipped, duration := none
    reason := some "missing configuration", output_preview := none }

/-- Record appended for an executed step (lines 235-240): status from the
success flag, measured duration, and the output truncated to 500 characters. -/
def execResult (s : Step) (ok : Bool) (output : String) (d : Nat) : StepResult :=
  { name := s.name
    status := if ok then StepStatus.success else StepStatus.failed
    duration := some d
    reason := none
    output_preview := some (output.take 500) }

/-- Sequencer loop of run_maintenance_sequence (MaintenanceOrchestrator.py
lines 195-252).  Returns the run report together with the suffix of the
pipeline left unprocessed by a critical break (empty on normal completion).
The overall success flag starts true and is false exactly when a failure was
recorded; critical_failure is set exactly by the break. -/
def runSteps (sub : List String → Nat → SubOutcome) (env : String → String)
    (dur : Step → Nat) (selected : Option (List String)) (skips : List String) :
    List Step → RunReport × List Step
  | [] => ({ steps := [], success := true, critical_failure := false }, [])
  | step :: rest =>
    if filteredOut selected step then
      runSteps sub env dur selected skips rest
    else if skips.contains step.name then
      let r := runSteps sub env dur selected skips rest
      ({ steps := skipResult step :: r.fst.steps, success := r.fst.success
         critical_failure := r.fst.critical_failure }, r.snd)
    else if needsConfigSkip env step then
      let r := runSteps sub env dur selected skips rest
      ({ steps := configSkipResult step :: r.fst.steps, success := r.fst.success
         critical_failure := r.fst.critical_failure }, r.snd)
    else
      let inv := invokeStep sub step
      let res := execResult step inv.fst inv.snd (dur step)
      if inv.fst then
        let r := runSteps sub env dur selected skips rest
        ({ steps := res :: r.fst.steps, success := r.fst.success
           critical_failure := r.fst.critical_failure }, r.snd)
      else if step.critical then
        ({ steps := [res], success := false, critical_failure := true }, rest)
      else
        let r := runSteps sub env dur selected skips rest
        ({ steps := res :: r.fst.steps, success := false
           critical_failure := r.fst.critical_failure }, r.snd)

/-- Embedding of run_maintenance_sequence: run the loop over a pipeline and
return the report.  The fixed global SCRIPT_SEQUENCE of the source becomes
an explicit pipeline parameter. -/
def run_maintenance_sequence (sub : List String → Nat → SubOutcome)
    (env : String → String) (dur : Step → Nat) (sequence : List Step)
    (selected : Option (List String)) (skips : List String) : RunReport :=
  (runSteps sub env dur selected skips sequence).fst

/-- Static pipeline SCRIPT_SEQUENCE of MaintenanceOrchestrator.py
(lines 32-97). -/
def SCRIPT_SEQUENCE : List Step :=
  [ { name := "Block Connections"
      runner := Runner.module "src.version_management.ManageConnections" ["block"]
      critical := true, requires_config := none }
  , { name := "Disconnect Users"
      runner := Runner.module "src.connection_management.DisconnectUsers" []
      critical := true, requires_config := none }
  , { name := "Reconcile/Post Versions"
      runner := Runner.module "src.version_management.ReconcilePostVersions" []
      critical := false, requires_config := none }
  , { name := "Delete Stale Versions"
      runner := Runner.module "src.version_management.DeleteStaleVersions" []
      critical := false, requires_config := none }
  , { name := "Compress/Rebuild/Analyze"
      runner := Runner.script "CompressRebuildAnalyze.py"
      critical := true, requires_config := none }
  , { name := "Check Geometry"
      runner := Runner.module "src.data_integrity.RepairGeometry" []
      critical := false, requires_config := none }
  , { name := "Validate Topology"
      runner := Runner.module "src.data_integrity.ValidateTopology" []
      critical := false, requires_config := none }
  , { name := "Export XML Schema"
      runner := Runner.module "src.backup.XMLWorkspaceExport" []
      critical := false, requires_config := none }
  , { name := "Generate Health Report"
      runner := Runner.module "src.health_monitoring.DatabaseHealthSummary" []
      critical := false, requires_config := none }
  , { name := "Allow Connections"
      runner := Runner.module "src.version_management.ManageConnections" ["allow"]
      critical := true, requires_config := none }
  , { name := "Server Health Check"
      runner := Runner.module "src.server_portal.ServerPortalMaintenance" []
      critical := false
      requires_config := some ["AGS_SERVER_URL", "AGS_ADMIN_USER", "AGS_ADMIN_PASSWORD"] }
  , { name := "Portal Backup"
      runner := Runner.module "src.server_portal.PortalBackup" []
      critical := false
      requires_config := some ["PORTAL_URL", "PORTAL_ADMIN_USER",
        "PORTAL_ADMIN_PASSWORD", "PORTAL_BACKUP_DIR"] }
  ]


/-- Concrete two-version parent cycle (malformed input for the ordering
loop). -/
def exampleCycle : List Version :=
  [ { name := "A", owner := "", parent := some "B", age_days := 0 }
  , { name := "B", owner := "", parent := some "A", age_days := 0 } ]

/-- Concrete well-formed chain: a stale child on a stale parent, as in the
specification scenario. -/
def exampleChain : List Version :=
  [ { name := "u2.v2", owner := "u2", parent := some "u1.v1", age_days := 35 }
  , { name := "u1.v1", owner := "u1", parent := some "DEFAULT", age_days := 40 } ]

/-- Subprocess oracle where every invocation completes with exit code 0. -/
def subAllOk : List String → Nat → SubOutcome :=
  fun _ _ => SubOutcome.completed 0 "" ""

/-- Subprocess oracle where every invocation completes with exit code 1. -/
def subAllFail : List String → Nat → SubOutcome :=
  fun _ _ => SubOutcome.completed 1 "" ""

/-- Environment oracle with every variable unset. -/
def envEmpty : String → String := fun _ => ""

/-- Duration oracle reporting zero seconds for every step. -/
def durZero : Step → Nat := fun _ => 0


/-- Subprocess oracle failing exactly the command of module m2 with exit
code 1 and completing every other command with exit code 0. -/
def subFailM2 : List String → Nat → SubOutcome :=
  fun cmd _ => if cmd.contains "m2" then SubOutcome.completed 1 "" ""
    else SubOutcome.completed 0 "" ""

/-- Subprocess oracle that reports the timeout it was handed: it completes
only when called with an 18000 second timeout. -/
def subOnly18000 : List String → Nat → SubOutcome :=
  fun _ t => if t = 18000 then SubOutcome.completed 0 "" ""
    else SubOutcome.raised "timeout-not-18000"

/-- Subprocess oracle that raises exactly when handed a 3600 second
timeout. -/
def subDetect3600 : List String → Nat → SubOutcome :=
  fun _ t => if t = 3600 then SubOutcome.raised "timeout-3600"
    else SubOutcome.completed 0 "" ""

/-- Subprocess oracle where every invocation hits its timeout. -/
def subAllTimeout : List String → Nat → SubOutcome :=
  fun _ _ => SubOutcome.timedOut

/-- Plain non-critical step targeting module m. -/
def stepA : Step :=
  { name := "A", runner := Runner.module "m" [], critical := false
    requires_config := none }

/-- Plain non-critical step targeting module m3. -/
def stepB : Step :=
  { name := "B", runner := Runner.module "m3" [], critical := false
    requires_config := none }

/-- Non-critical first step of the three-step scenario. -/
def stepOkM1 : Step :=
  { name := "S1", runner := Runner.module "m1" [], critical := false
    requires_config := none }

/-- Critical second step of the three-step scenario; its module m2 fails
under subFailM2. -/
def stepCritM2 : Step :=
  { name := "S2", runner := Runner.module "m2" [], critical := true
    requires_config := none }

/-- Third step of the three-step scenario, never reached. -/
def stepTailM3 : Step :=
  { name := "S3", runner := Runner.module "m3" [], critical := false
    requires_config := none }

/-- Critical step whose module fails under subAllFail. -/
def stepCritFail : Step :=
  { name := "F", runner := Runner.module "mf" [], critical := true
    requires_config := none }

/-- C5: filter_stale_versions is a pure filter returning exactly the input
versions whose age reaches the threshold and whose name matches no exclusion
pattern case-insensitively; with threshold 0 and no matching exclusion it
returns the whole input (ages are non-negative integers per the data model). -/
theorem filter_stale_characterization (versions : List Version) (max_age_days : Int)
    (pats : List String) :
    (filter_stale_versions versions max_age_days pats).Sublist versions ∧
    (∀ v : Version, v ∈ filter_stale_versions versions max_age_days pats ↔
      v ∈ versions ∧ max_age_days ≤ v.age_days ∧ ∀ p ∈ pats, containsCI v.name p = false) ∧
    ((∀ v ∈ versions, 0 ≤ v.age_days) →
      (∀ v ∈ versions, ∀ p ∈ pats, containsCI v.name p = false) →
      filter_stale_versions versions 0 pats = versions) := by
  refine ⟨List.filter_sublist versions, ?_, ?_⟩
  · intro v
    rw [filter_stale_versions, List.mem_filter]
    refine and_congr_right (fun _ => ?_)
    by_cases hage : v.age_days < max_age_days
    · simp only [hage, if_true]
      constructor
      · intro h; exact absurd h (by simp)
      · rintro ⟨hle, -⟩; exact absurd hle (not_le.mpr hage)
    · simp only [hage, if_false]
      rw [Bool.not_eq_true', List.any_eq_false]
      constructor
      · intro h
        exact ⟨not_lt.mp hage, fun p hp => Bool.not_eq_true _ ▸ (by simpa using h p hp)⟩
      · rintro ⟨-, h⟩
        intro p hp
        simp [h p hp]
  · intro hage hpat
    rw [filter_stale_versions, List.filter_eq_self]
    intro v hv
    have h0 : ¬ v.age_days < 0 := not_lt.mpr (hage v hv)
    simp only [h0, if_false, Bool.not_eq_true', List.any_eq_false]
    intro p hp
    simp [hpat v hv p hp]

/-- C5 witness: a single 40-day-old version with a non-matching exclusion
pattern survives the threshold-0 filter unchanged. -/
theorem filter_stale_characterization_witness :
    filter_stale_versions
      [{ name := "QA_x", owner := "", parent := none, age_days := 40 }] 0 ["PROD_"] =
      [{ name := "QA_x", owner := "", parent := none, age_days := 40 }] :=
  (filter_stale_characterization
      [{ name := "QA_x", owner := "", parent := none, age_days := 40 }] 0 ["PROD_"]).2.2
    (by decide) (by decide)

/-- C10: the deletion loop of process_database attempts every planned
version exactly once, in plan order, regardless of earlier failures; the
deleted counter counts exactly the successful attempts, and deleted plus
skipped equals the plan length. -/
theorem deletion_loop_total_attempts (del : String → Bool) (plan : List Version) :
    (deletionAttempts del plan).map (fun a => a.fst) = plan.map (fun v => v.name) ∧
    (runDeletionLoop del plan).deleted =
      ((deletionAttempts del plan).filter (fun a => a.snd)).length ∧
    (runDeletionLoop del plan).deleted + (runDeletionLoop del plan).skipped = plan.length := by
  have hmap : (deletionAttempts del plan).map (fun a => a.fst) = plan.map (fun v => v.name) := by
    induction plan with
    | nil => rfl
    | cons v rest ih => simp [deletionAttempts, ih]
  have hlen : (deletionAttempts del plan).length = plan.length := by
    have := congrArg List.length hmap
    simpa using this
  refine ⟨hmap, ?_, ?_⟩
  · rw [runDeletionLoop]
    exact List.countP_eq_length_filter _ _
  · have hle : (deletionAttempts del plan).countP (fun a => a.snd) ≤ plan.length :=
      hlen ▸ List.countP_le_length _
    simp only [runDeletionLoop]
    omega

/-- C1 counterexample: with full list C (child of P, age 0), P (child of G)
and G, and candidates G and P, the single protection pass removes only P;
G remains although its child P now lies outside the final candidate set, so
the protection is not applied transitively to a fixed point. -/
theorem protect_pass_not_transitive_cex :
    (protect_parents_pass
      [ { name := "C", owner := "", parent := some "P", age_days := 0 }
      , { name := "P", owner := "", parent := some "G", age_days := 100 }
      , { name := "G", owner := "", parent := none, age_days := 100 } ]
      [ { name := "G", owner := "", parent := none, age_days := 100 }
      , { name := "P", owner := "", parent := some "G", age_days := 100 } ]).map
        (fun v => v.name) = ["G"] ∧
    has_non_stale_children "G"
      ((protect_parents_pass
        [ { name := "C", owner := "", parent := some "P", age_days := 0 }
        , { name := "P", owner := "", parent := some "G", age_days := 100 }
        , { name := "G", owner := "", parent := none, age_days := 100 } ]
        [ { name := "G", owner := "", parent := none, age_days := 100 }
        , { name := "P", owner := "", parent := some "G", age_days := 100 } ]).map
          (fun v => v.name))
      [ { name := "C", owner := "", parent := some "P", age_days := 0 }
      , { name := "P", owner := "", parent := some "G", age_days := 100 }
      , { name := "G", owner := "", parent := none, age_days := 100 } ] = true := by
  decide

/-- C1 amended: the protection step is a single pass against the initial
candidate-name set: the result is a sub-sequence of the candidates holding
EXACTLY those candidates all of whose children (in the full version list)
lie inside the INITIAL candidate set — kept candidates have no child outside
the initial set, and every candidate with no child outside the initial set
is kept; chained protections are not re-applied. -/
theorem protect_pass_single_pass (all_versions stale : List Version) :
    (protect_parents_pass all_versions stale).Sublist stale ∧
    ∀ v : Version, v ∈ protect_parents_pass all_versions stale ↔
      (v ∈ stale ∧ ∀ w ∈ all_versions, w.parent = some v.name →
        w.name ∈ stale.map (fun u => u.name)) := by
  constructor
  · exact List.filter_sublist stale
  · intro v
    simp only [protect_parents_pass]
    rw [List.mem_filter]
    refine and_congr_right (fun _ => ?_)
    rw [Bool.not_eq_eq_eq_not, Bool.not_true, has_non_stale_children, List.any_eq_false]
    constructor
    · intro hpred w hw hpar
      have hw2 := hpred w hw
      rw [Bool.and_eq_true, not_and] at hw2
      have hbeq : (w.parent == some v.name) = true := by
        rw [hpar]
        exact beq_self_eq_true _
      have hcc := hw2 hbeq
      rw [Bool.not_eq_true', Bool.not_eq_false] at hcc
      exact List.elem_iff.mp hcc
    · intro hsafe w hw
      rw [Bool.and_eq_true, not_and]
      intro hbeq
      have hpar : w.parent = some v.name := eq_of_beq hbeq
      have hmem := hsafe w hw hpar
      rw [Bool.not_eq_true', Bool.not_eq_false]
      exact List.elem_iff.mpr hmem

/-- C1 amendment witness: the characterization is exercised in both
directions on the concrete chain: G is kept because its only child P lies in
the initial candidate set (completeness), and from the kept G the theorem
returns that containment (soundness). -/
theorem protect_pass_single_pass_witness :
    ({ name := "G", owner := "", parent := none, age_days := 100 } : Version) ∈
      protect_parents_pass
        [ { name := "C", owner := "", parent := some "P", age_days := 0 }
        , { name := "P", owner := "", parent := some "G", age_days := 100 }
        , { name := "G", owner := "", parent := none, age_days := 100 } ]
        [ { name := "G", owner := "", parent := none, age_days := 100 }
        , { name := "P", owner := "", parent := some "G", age_days := 100 } ] ∧
    ("P" : String) ∈
      ([ { name := "G", owner := "", parent := none, age_days := 100 }
       , { name := "P", owner := "", parent := some "G", age_days := 100 } ] :
        List Version).map (fun u => u.name) :=
  ⟨((protect_pass_single_pass
      [ { name := "C", owner := "", parent := some "P", age_days := 0 }
      , { name := "P", owner := "", parent := some "G", age_days := 100 }
      , { name := "G", owner := "", parent := none, age_days := 100 } ]
      [ { name := "G", owner := "", parent := none, age_days := 100 }
      , { name := "P", owner := "", parent := some "G", age_days := 100 } ]).2
      { name := "G", owner := "", parent := none, age_days := 100 }).mpr
    ⟨by decide, by decide⟩,
   ((((protect_pass_single_pass
      [ { name := "C", owner := "", parent := some "P", age_days := 0 }
      , { name := "P", owner := "", parent := some "G", age_days := 100 }
      , { name := "G", owner := "", parent := none, age_days := 100 } ]
      [ { name := "G", owner := "", parent := none, age_days := 100 }
      , { name := "P", owner := "", parent := some "G", age_days := 100 } ]).2
      { name := "G", owner := "", parent := none, age_days := 100 }).mp
      (by decide)).2)
    { name := "P", owner := "", parent := some "G", age_days := 100 } (by decide)
    (by decide)⟩

/-- Unfolding equation for one round of the ordering loop. -/
theorem orderNamesFuel_succ (vs : List Version) (k : Nat) (r : List String) :
    orderNamesFuel vs (k + 1) r =
      if r.isEmpty then some []
      else if (leavesOf vs r).isEmpty then some r
      else
        match orderNamesFuel vs k (r.filter (fun n => !((leavesOf vs r).contains n))) with
        | some rest => some (leavesOf vs r ++ rest)
        | none => none := rfl

/-- Membership of a filtered list, computed as the Boolean predicate when the
element belongs to the base list. -/
theorem contains_filter_eq (l : List String) (q : String → Bool) (n : String) (hn : n ∈ l) :
    (l.filter q).contains n = q n := by
  cases hb : q n with
  | true => exact List.elem_iff.mpr (List.mem_filter.mpr ⟨hn, hb⟩)
  | false =>
    rw [Bool.eq_false_iff]
    intro hc
    have hq := (List.mem_filter.mp (List.elem_iff.mp hc)).2
    rw [hb] at hq
    exact Bool.false_ne_true hq

/-- Every round with at least one leaf strictly shrinks the working set. -/
theorem remaining_shrinks (vs : List Version) (remaining : List String)
    (h : ¬ (leavesOf vs remaining).isEmpty = true) :
    (remaining.filter (fun n => !((leavesOf vs remaining).contains n))).length <
      remaining.length := by
  rw [List.length_filter_lt_length_iff_exists]
  have hne : leavesOf vs remaining ≠ [] := by
    intro hnil
    rw [hnil] at h
    exact h rfl
  obtain ⟨x, hx⟩ := List.exists_mem_of_ne_nil _ hne
  have hx2 : x ∈ remaining := by
    rw [leavesOf] at hx
    exact (List.mem_filter.mp hx).1
  refine ⟨x, hx2, ?_⟩
  simp only [Bool.not_eq_true]
  rw [show (leavesOf vs remaining).contains x = true from List.elem_iff.mpr hx]
  rfl

/-- A round budget exceeding the working-set size always lets the ordering
loop exit normally: the loop terminates on every input. -/
theorem orderNamesFuel_succeeds (vs : List Version) :
    ∀ (fuel : Nat) (remaining : List String), remaining.length < fuel →
      ∃ out, orderNamesFuel vs fuel remaining = some out := by
  intro fuel
  induction fuel with
  | zero => exact fun r h => absurd h (Nat.not_lt_zero _)
  | succ k ih =>
    intro r h
    by_cases hr : r.isEmpty = true
    · exact ⟨[], by rw [orderNamesFuel_succ, if_pos hr]⟩
    · by_cases hl : (leavesOf vs r).isEmpty = true
      · exact ⟨r, by rw [orderNamesFuel_succ, if_neg hr, if_pos hl]⟩
      · have hs := remaining_shrinks vs r hl
        obtain ⟨out, hout⟩ :=
          ih (r.filter (fun n => !((leavesOf vs r).contains n))) (by omega)
        exact ⟨leavesOf vs r ++ out,
          by rw [orderNamesFuel_succ, if_neg hr, if_neg hl, hout]⟩

/-- The loop result does not depend on the budget once the budget exceeds
the working-set size. -/
theorem orderNamesFuel_stable (vs : List Version) :
    ∀ (fuel f2 : Nat) (remaining : List String), remaining.length < fuel →
      remaining.length < f2 →
      orderNamesFuel vs fuel remaining = orderNamesFuel vs f2 remaining := by
  intro fuel
  induction fuel with
  | zero => exact fun f2 r h _ => absurd h (Nat.not_lt_zero _)
  | succ k ih =>
    intro f2 r h1 h2
    cases f2 with
    | zero => exact absurd h2 (Nat.not_lt_zero _)
    | succ j =>
      by_cases hr : r.isEmpty = true
      · rw [orderNamesFuel_succ, orderNamesFuel_succ, if_pos hr, if_pos hr]
      · by_cases hl : (leavesOf vs r).isEmpty = true
        · rw [orderNamesFuel_succ, orderNamesFuel_succ, if_neg hr, if_pos hl,
            if_neg hr, if_pos hl]
        · have hs := remaining_shrinks vs r hl
          have hrec := ih j (r.filter (fun n => !((leavesOf vs r).contains n)))
            (by omega) (by omega)
          rw [orderNamesFuel_succ, orderNamesFuel_succ, if_neg hr, if_neg hl,
            if_neg hr, if_neg hl, hrec]

/-- Canonical budget used by orderNames is always sufficient. -/
theorem orderNames_fuel_eq (vs : List Version) (remaining : List String) :
    orderNamesFuel vs (remaining.length + 1) remaining = some (orderNames vs remaining) := by
  obtain ⟨out, hout⟩ := orderNamesFuel_succeeds vs (remaining.length + 1) remaining (by omega)
  rw [orderNames, hout]
  rfl

/-- Any successful run of the ordering loop emits a permutation of its
working set, whether or not the fallback branch fired. -/
theorem orderNamesFuel_perm (vs : List Version) :
    ∀ (fuel : Nat) (remaining out : List String),
      orderNamesFuel vs fuel remaining = some out → out.Perm remaining := by
  intro fuel
  induction fuel with
  | zero => intro r out h; exact absurd h (by rw [orderNamesFuel]; exact Option.noConfusion)
  | succ k ih =>
    intro r out h
    rw [orderNamesFuel_succ] at h
    by_cases hr : r.isEmpty = true
    · rw [if_pos hr] at h
      rw [List.isEmpty_iff] at hr
      subst hr
      cases h
      exact List.Perm.refl []
    · rw [if_neg hr] at h
      by_cases hl : (leavesOf vs r).isEmpty = true
      · rw [if_pos hl] at h
        cases h
        exact List.Perm.refl r
      · rw [if_neg hl] at h
        cases hrec : orderNamesFuel vs k
            (r.filter (fun n => !((leavesOf vs r).contains n))) with
        | none => rw [hrec] at h; exact Option.noConfusion h
        | some rest =>
          rw [hrec] at h
          cases h
          have hrp := ih _ rest hrec
          have hfc : r.filter (fun n => !((leavesOf vs r).contains n)) =
              r.filter (fun n =>
                !((childNames vs n).all (fun c => !(r.contains c)))) := by
            apply List.filter_congr
            intro n hn
            have hce : (leavesOf vs r).contains n =
                (childNames vs n).all (fun c => !(r.contains c)) := by
              rw [leavesOf]
              exact contains_filter_eq r _ n hn
            rw [hce]
          have hstep : (leavesOf vs r ++
              r.filter (fun n => !((leavesOf vs r).contains n))).Perm r := by
            rw [hfc, leavesOf]
            exact List.filter_append_perm _ r
          exact (List.Perm.append_left (leavesOf vs r) hrp).trans hstep

/-- Every non-empty list of names has an element of minimal rank. -/
theorem exists_min_rank (rank : String → Nat) :
    ∀ (l : List String), l ≠ [] → ∃ m ∈ l, ∀ x ∈ l, rank m ≤ rank x := by
  intro l
  induction l with
  | nil => intro hh; exact absurd rfl hh
  | cons a t ih =>
    intro _
    by_cases ht : t = []
    · subst ht
      refine ⟨a, by simp, ?_⟩
      intro x hx
      have hxa : x = a := by simpa using hx
      subst hxa
      exact le_refl _
    · obtain ⟨m, hm, hmin⟩ := ih ht
      by_cases ha : rank a ≤ rank m
      · refine ⟨a, by simp, ?_⟩
        intro x hx
        rcases List.mem_cons.mp hx with hxa | hxt
        · subst hxa; exact le_refl _
        · exact le_trans ha (hmin x hxt)
      · refine ⟨m, List.mem_cons_of_mem a hm, ?_⟩
        intro x hx
        rcases List.mem_cons.mp hx with hxa | hxt
        · subst hxa; exact le_of_lt (not_le.mp ha)
        · exact hmin x hxt

/-- Under a rank function that decreases from children to parents (an
acyclicity certificate for the candidate parent graph), a non-empty working
set always contains a leaf, so the fallback branch never fires. -/
theorem leaves_ne_nil (vs : List Version) (rank : String → Nat)
    (remaining : List String) (hne : remaining ≠ [])
    (hsub : ∀ n ∈ remaining, n ∈ vs.map (fun v => v.name))
    (hr : ∀ v ∈ vs, ∀ p, truthyParent v = some p →
      p ∈ vs.map (fun v => v.name) → rank v.name < rank p) :
    leavesOf vs remaining ≠ [] := by
  obtain ⟨m, hm, hmin⟩ := exists_min_rank rank remaining hne
  have hq : (childNames vs m).all (fun c => !(remaining.contains c)) = true := by
    rw [List.all_eq_true]
    intro c hc
    rw [childNames] at hc
    rcases List.mem_map.mp hc with ⟨w, hwmem, hwname⟩
    have hw := List.mem_filter.mp hwmem
    have hpar : truthyParent w = some m := eq_of_beq hw.2
    rw [Bool.not_eq_eq_eq_not, Bool.not_true, Bool.eq_false_iff]
    intro hcon
    have hmem2 : c ∈ remaining := List.elem_iff.mp hcon
    have hlt := hr w hw.1 m hpar (hsub m hm)
    rw [hwname] at hlt
    have hle := hmin c hmem2
    omega
  intro hnil
  have hmem : m ∈ leavesOf vs remaining := by
    rw [leavesOf]
    exact List.mem_filter.mpr ⟨hm, hq⟩
  rw [hnil] at hmem
  exact absurd hmem (List.not_mem_nil m)

/-- Under the acyclicity certificate, every successful run of the ordering
loop never lists a name before one of its children: whenever some version of
the full list is named b and has truthy parent a, a does not precede b in
the emitted name sequence. -/
theorem orderNamesFuel_pairwise (vs : List Version) (rank : String → Nat)
    (hr : ∀ v ∈ vs, ∀ p, truthyParent v = some p →
      p ∈ vs.map (fun v => v.name) → rank v.name < rank p) :
    ∀ (fuel : Nat) (remaining out : List String),
      orderNamesFuel vs fuel remaining = some out →
      (∀ n ∈ remaining, n ∈ vs.map (fun v => v.name)) →
      List.Pairwise (fun a b => ∀ w ∈ vs, w.name = b → truthyParent w ≠ some a) out := by
  intro fuel
  induction fuel with
  | zero =>
    intro r out hh _
    exact absurd hh (by rw [orderNamesFuel]; exact Option.noConfusion)
  | succ k ih =>
    intro r out hh hsub
    have hkey : ∀ a ∈ leavesOf vs r, ∀ b ∈ r, ∀ w ∈ vs, w.name = b →
        truthyParent w ≠ some a := by
      intro a ha b hb w hwv hwn hcontra
      rw [leavesOf] at ha
      have ha2 := List.mem_filter.mp ha
      have hbc : b ∈ childNames vs a := by
        rw [childNames]
        exact List.mem_map.mpr
          ⟨w, List.mem_filter.mpr ⟨hwv, by rw [hcontra]; exact beq_self_eq_true _⟩, hwn⟩
      have hall := List.all_eq_true.mp ha2.2 b hbc
      rw [Bool.not_eq_eq_eq_not, Bool.not_true, Bool.eq_false_iff] at hall
      exact hall (List.elem_iff.mpr hb)
    rw [orderNamesFuel_succ] at hh
    by_cases hre : r.isEmpty = true
    · rw [if_pos hre] at hh
      cases hh
      exact List.Pairwise.nil
    · rw [if_neg hre] at hh
      by_cases hl : (leavesOf vs r).isEmpty = true
      · exfalso
        have hrne : r ≠ [] := by
          intro hnil; rw [hnil] at hre; exact hre rfl
        rw [List.isEmpty_iff] at hl
        exact leaves_ne_nil vs rank r hrne hsub hr hl
      · rw [if_neg hl] at hh
        cases hrec : orderNamesFuel vs k
            (r.filter (fun n => !((leavesOf vs r).contains n))) with
        | none => rw [hrec] at hh; exact Option.noConfusion hh
        | some rest =>
          rw [hrec] at hh
          cases hh
          rw [List.pairwise_append]
          refine ⟨?_, ?_, ?_⟩
          · apply List.pairwise_of_forall_mem_list
            intro a ha b hb
            have hbr : b ∈ r := by
              rw [leavesOf] at hb
              exact (List.mem_filter.mp hb).1
            exact hkey a ha b hbr
          · apply ih _ rest hrec
            intro n hn
            exact hsub n (List.mem_filter.mp hn).1
          · intro a ha b hb
            have hbmem : b ∈ r.filter (fun n => !((leavesOf vs r).contains n)) :=
              (orderNamesFuel_perm vs k _ rest hrec).mem_iff.mp hb
            exact hkey a ha b (List.mem_filter.mp hbmem).1

/-- When version names are pairwise distinct, the version-map lookup returns
exactly the version carrying the looked-up name. -/
theorem lookup_of_nodup (vs : List Version)
    (hnd : (vs.map (fun v => v.name)).Nodup) :
    ∀ v ∈ vs, lookupVersion vs v.name = some v := by
  intro v hv
  have hvrev : v ∈ vs.reverse := List.mem_reverse.mpr hv
  cases hfind : vs.reverse.find? (fun u => u.name == v.name) with
  | none =>
    exfalso
    have hna := List.find?_eq_none.mp hfind v hvrev
    exact hna (beq_self_eq_true _)
  | some w =>
    have hwmem : w ∈ vs.reverse := List.mem_of_find?_eq_some hfind
    have hwp := List.find?_some hfind
    have hweq : w = v :=
      List.inj_on_of_nodup_map hnd (List.mem_reverse.mp hwmem) hv (eq_of_beq hwp)
    rw [lookupVersion, hfind, hweq]

/-- C6: the ordering loop terminates on every finite input, including cycles
and dangling references: a fuel of one more round than the working-set size
always produces the final result, and a round with no eligible leaves and a
non-empty working set appends the whole working set in its current order and
stops. -/
theorem order_loop_terminates :
    (∀ (vs : List Version) (remaining : List String), remaining ≠ [] →
      leavesOf vs remaining = [] → orderNames vs remaining = remaining) ∧
    (∀ (vs : List Version) (fuel : Nat) (remaining : List String),
      remaining.length < fuel →
      orderNamesFuel vs fuel remaining = some (orderNames vs remaining)) := by
  constructor
  · intro vs remaining hne hl
    have hre : ¬ remaining.isEmpty = true := by
      rw [List.isEmpty_iff]
      exact hne
    have hle : (leavesOf vs remaining).isEmpty = true := by
      rw [hl]
      rfl
    rw [orderNames, orderNamesFuel_succ, if_neg hre, if_pos hle]
    rfl
  · intro vs fuel remaining hf
    rw [orderNamesFuel_stable vs fuel (remaining.length + 1) remaining hf (by omega),
      orderNames_fuel_eq]

/-- C6 witness: on the concrete two-cycle the first round already finds no
leaves, the whole working set is appended unchanged, and any budget beyond
the working-set size returns that same result. -/
theorem order_loop_terminates_witness :
    orderNames exampleCycle ["A", "B"] = ["A", "B"] ∧
    orderNamesFuel exampleCycle 7 ["A", "B"] =
      some (orderNames exampleCycle ["A", "B"]) :=
  ⟨order_loop_terminates.1 exampleCycle ["A", "B"] (by decide) (by decide),
   order_loop_terminates.2 exampleCycle 7 ["A", "B"] (by decide)⟩

/-- C2 counterexample: on a two-version parent cycle the fallback branch
returns the candidates in their input order, so version B with parent A
appears after A and the children-before-parents guarantee fails; the claim
asserts that guarantee for every input, including malformed ones. -/
theorem order_cycle_violates_cex :
    order_versions_for_deletion exampleCycle = exampleCycle ∧
    ({ name := "B", owner := "", parent := some "A", age_days := 0 } : Version).parent =
      some ({ name := "A", owner := "", parent := some "B", age_days := 0 } : Version).name ∧
    ¬ List.Pairwise (fun a b : Version => b.parent ≠ some a.name)
      (order_versions_for_deletion exampleCycle) := by
  refine ⟨by decide, by decide, by decide⟩

/-- C2 amended: for candidate lists with pairwise-distinct non-empty names
(the data-model invariants), the ordering function is total and returns a
permutation of its input on every input, including malformed ones; and
whenever the candidate parent relation is acyclic — certified by a rank
function that decreases from parents to children — every version whose
parent is also in the output appears strictly before that parent.  On
cyclic input the fallback order may violate the children-first guarantee. -/
theorem order_versions_spec (vs : List Version) (rank : String → Nat)
    (hnd : (vs.map (fun v => v.name)).Nodup)
    (hne : ∀ v ∈ vs, v.name ≠ "") :
    (order_versions_for_deletion vs).Perm vs ∧
    ((∀ v ∈ vs, ∀ p, truthyParent v = some p → p ∈ vs.map (fun v => v.name) →
        rank v.name < rank p) →
      List.Pairwise (fun a b : Version => b.parent ≠ some a.name)
        (order_versions_for_deletion vs)) := by
  have hded : (vs.map (fun v => v.name)).dedup = vs.map (fun v => v.name) :=
    List.dedup_eq_self.2 hnd
  have hnames_perm : (orderNames vs (vs.map (fun v => v.name))).Perm
      (vs.map (fun v => v.name)) :=
    orderNamesFuel_perm vs _ _ _ (orderNames_fuel_eq vs _)
  have hlook := lookup_of_nodup vs hnd
  have hmapg : (vs.map (fun v => v.name)).map
      (fun n => (lookupVersion vs n).getD defaultVersion) = vs := by
    rw [List.map_map]
    have hc : ∀ v ∈ vs,
        ((fun n => (lookupVersion vs n).getD defaultVersion) ∘ (fun v => v.name)) v =
          id v := by
      intro v hv
      simp [Function.comp, hlook v hv]
    rw [List.map_congr_left hc, List.map_id]
  have hunfold : order_versions_for_deletion vs =
      (orderNames vs (vs.map (fun v => v.name))).map
        (fun n => (lookupVersion vs n).getD defaultVersion) := by
    rw [order_versions_for_deletion, hded]
  constructor
  · rw [hunfold]
    have hperm2 := hnames_perm.map (fun n => (lookupVersion vs n).getD defaultVersion)
    rw [hmapg] at hperm2
    exact hperm2
  · intro hr
    have hp := orderNamesFuel_pairwise vs rank hr _ _ _
      (orderNames_fuel_eq vs (vs.map (fun v => v.name))) (fun n hn => hn)
    rw [hunfold, List.pairwise_map]
    refine List.Pairwise.imp_of_mem ?_ hp
    intro a b ham hbm hS hcontra
    have hain : a ∈ vs.map (fun v => v.name) := hnames_perm.mem_iff.mp ham
    have hbin : b ∈ vs.map (fun v => v.name) := hnames_perm.mem_iff.mp hbm
    rcases List.mem_map.mp hain with ⟨u, hu, huname⟩
    rcases List.mem_map.mp hbin with ⟨w, hw, hwname⟩
    have hga : (lookupVersion vs a).getD defaultVersion = u := by
      rw [← huname, hlook u hu]
      rfl
    have hgb : (lookupVersion vs b).getD defaultVersion = w := by
      rw [← hwname, hlook w hw]
      rfl
    rw [hga, hgb] at hcontra
    have hane : a ≠ "" := huname ▸ hne u hu
    have hwp : w.parent = some a := by
      rw [hcontra, huname]
    have htp : truthyParent w = some a := by
      simp [truthyParent, hwp, hane]
    exact hS w hw hwname htp

/-- C2 witness: on the concrete two-version chain the theorem yields a
permutation of the candidates in which the child u2.v2 precedes its parent
u1.v1. -/
theorem order_versions_spec_witness :
    (order_versions_for_deletion exampleChain).Perm exampleChain ∧
    List.Pairwise (fun a b : Version => b.parent ≠ some a.name)
      (order_versions_for_deletion exampleChain) := by
  have h := order_versions_spec exampleChain
    (fun n => if n = "u2.v2" then 0 else 1) (by decide) (by decide)
  refine ⟨h.1, h.2 ?_⟩
  intro v hv p hp hpm
  rcases List.mem_cons.mp hv with h1 | hv2
  · subst h1
    simp only [truthyParent] at hp
    have hp2 : p = "u1.v1" := by
      simpa using hp.symm
    subst hp2
    decide
  · rcases List.mem_cons.mp hv2 with h1 | hv3
    · subst h1
      simp only [truthyParent] at hp
      have hp2 : p = "DEFAULT" := by
        simpa using hp.symm
      subst hp2
      exact absurd hpm (by decide)
    · exact absurd hv3 (List.not_mem_nil v)

/-- Branch equation: a step dropped by the selection filter leaves no trace. -/
theorem runSteps_filtered (sub : List String → Nat → SubOutcome) (env : String → String)
    (dur : Step → Nat) (selected : Option (List String)) (skips : List String)
    (s : Step) (rest : List Step) (hf : filteredOut selected s = true) :
    runSteps sub env dur selected skips (s :: rest) =
      runSteps sub env dur selected skips rest := by
  simp only [runSteps]
  rw [if_pos hf]

/-- Branch equation: a manually skipped step records the fixed skip result
and the run continues. -/
theorem runSteps_skip (sub : List String → Nat → SubOutcome) (env : String → String)
    (dur : Step → Nat) (selected : Option (List String)) (skips : List String)
    (s : Step) (rest : List Step) (hf : filteredOut selected s = false)
    (hs : skips.contains s.name = true) :
    runSteps sub env dur selected skips (s :: rest) =
      ({ steps := skipResult s :: (runSteps sub env dur selected skips rest).fst.steps
         success := (runSteps sub env dur selected skips rest).fst.success
         critical_failure :=
           (runSteps sub env dur selected skips rest).fst.critical_failure },
       (runSteps sub env dur selected skips rest).snd) := by
  simp only [runSteps]
  rw [if_neg (by rw [hf]; exact Bool.false_ne_true), if_pos hs]

/-- Branch equation: a step with missing configuration records the config
skip result and the run continues. -/
theorem runSteps_config (sub : List String → Nat → SubOutcome) (env : String → String)
    (dur : Step → Nat) (selected : Option (List String)) (skips : List String)
    (s : Step) (rest : List Step) (hf : filteredOut selected s = false)
    (hs : skips.contains s.name = false) (hc : needsConfigSkip env s = true) :
    runSteps sub env dur selected skips (s :: rest) =
      ({ steps := configSkipResult s :: (runSteps sub env dur selected skips rest).fst.steps
         success := (runSteps sub env dur selected skips rest).fst.success
         critical_failure :=
           (runSteps sub env dur selected skips rest).fst.critical_failure },
       (runSteps sub env dur selected skips rest).snd) := by
  simp only [runSteps]
  rw [if_neg (by rw [hf]; exact Bool.false_ne_true),
    if_neg (by rw [hs]; exact Bool.false_ne_true), if_pos hc]

/-- Branch equation: a successfully executed step records a success result
and the run continues. -/
theorem runSteps_exec_ok (sub : List String → Nat → SubOutcome) (env : String → String)
    (dur : Step → Nat) (selected : Option (List String)) (skips : List String)
    (s : Step) (rest : List Step) (hf : filteredOut selected s = false)
    (hs : skips.contains s.name = false) (hc : needsConfigSkip env s = false)
    (hok : (invokeStep sub s).fst = true) :
    runSteps sub env dur selected skips (s :: rest) =
      ({ steps := execResult s true (invokeStep sub s).snd (dur s) ::
           (runSteps sub env dur selected skips rest).fst.steps
         success := (runSteps sub env dur selected skips rest).fst.success
         critical_failure :=
           (runSteps sub env dur selected skips rest).fst.critical_failure },
       (runSteps sub env dur selected skips rest).snd) := by
  simp only [runSteps]
  rw [if_neg (by rw [hf]; exact Bool.false_ne_true),
    if_neg (by rw [hs]; exact Bool.false_ne_true),
    if_neg (by rw [hc]; exact Bool.false_ne_true), hok]
  rw [if_pos rfl]

/-- Branch equation: a failed critical step records its failure, clears the
overall success flag, sets the critical-failure flag, and stops: the rest of
the pipeline is returned unprocessed. -/
theorem runSteps_exec_fail_crit (sub : List String → Nat → SubOutcome) (env : String → String)
    (dur : Step → Nat) (selected : Option (List String)) (skips : List String)
    (s : Step) (rest : List Step) (hf : filteredOut selected s = false)
    (hs : skips.contains s.name = false) (hc : needsConfigSkip env s = false)
    (hok : (invokeStep sub s).fst = false) (hcrit : s.critical = true) :
    runSteps sub env dur selected skips (s :: rest) =
      ({ steps := [execResult s false (invokeStep sub s).snd (dur s)]
         success := false, critical_failure := true }, rest) := by
  simp only [runSteps]
  rw [if_neg (by rw [hf]; exact Bool.false_ne_true),
    if_neg (by rw [hs]; exact Bool.false_ne_true),
    if_neg (by rw [hc]; exact Bool.false_ne_true), hok]
  rw [if_neg Bool.false_ne_true, if_pos hcrit]

/-- Branch equation: a failed non-critical step records its failure, clears
the overall success flag, and the run continues. -/
theorem runSteps_exec_fail_noncrit (sub : List String → Nat → SubOutcome)
    (env : String → String) (dur : Step → Nat) (selected : Option (List String))
    (skips : List String) (s : Step) (rest : List Step)
    (hf : filteredOut selected s = false) (hs : skips.contains s.name = false)
    (hc : needsConfigSkip env s = false) (hok : (invokeStep sub s).fst = false)
    (hcrit : s.critical = false) :
    runSteps sub env dur selected skips (s :: rest) =
      ({ steps := execResult s false (invokeStep sub s).snd (dur s) ::
           (runSteps sub env dur selected skips rest).fst.steps
         success := false
         critical_failure :=
           (runSteps sub env dur selected skips rest).fst.critical_failure },
       (runSteps sub env dur selected skips rest).snd) := by
  simp only [runSteps]
  rw [if_neg (by rw [hf]; exact Bool.false_ne_true),
    if_neg (by rw [hs]; exact Bool.false_ne_true),
    if_neg (by rw [hc]; exact Bool.false_ne_true), hok]
  rw [if_neg Bool.false_ne_true, if_neg (by rw [hcrit]; exact Bool.false_ne_true)]

/-- Prepending to a non-empty list does not change its last element. -/
theorem cons_getLast?_eq {α : Type} (x : α) (l : List α) (h : l ≠ []) :
    (x :: l).getLast? = l.getLast? := by
  cases l with
  | nil => exact absurd rfl h
  | cons b t => exact List.getLast?_cons_cons

/-- Overall success of a run is false exactly when some recorded step result
is failed. -/
theorem runSteps_success_iff (sub : List String → Nat → SubOutcome) (env : String → String)
    (dur : Step → Nat) (selected : Option (List String)) (skips : List String) :
    ∀ seq : List Step,
      ((runSteps sub env dur selected skips seq).fst.success = false ↔
        ∃ r ∈ (runSteps sub env dur selected skips seq).fst.steps,
          r.status = StepStatus.failed) := by
  intro seq
  induction seq with
  | nil => simp [runSteps]
  | cons s rest ih =>
    by_cases h1 : filteredOut selected s = true
    · rw [runSteps_filtered sub env dur selected skips s rest h1]
      exact ih
    · have h1f : filteredOut selected s = false := Bool.eq_false_iff.mpr h1
      by_cases h2 : skips.contains s.name = true
      · rw [runSteps_skip sub env dur selected skips s rest h1f h2]
        constructor
        · intro hsuc
          obtain ⟨r, hr, hfail⟩ := ih.mp hsuc
          exact ⟨r, List.mem_cons_of_mem _ hr, hfail⟩
        · rintro ⟨r, hr, hfail⟩
          rcases List.mem_cons.mp hr with he | hm
          · subst he
            simp [skipResult] at hfail
          · exact ih.mpr ⟨r, hm, hfail⟩
      · have h2f : skips.contains s.name = false := Bool.eq_false_iff.mpr h2
        by_cases h3 : needsConfigSkip env s = true
        · rw [runSteps_config sub env dur selected skips s rest h1f h2f h3]
          constructor
          · intro hsuc
            obtain ⟨r, hr, hfail⟩ := ih.mp hsuc
            exact ⟨r, List.mem_cons_of_mem _ hr, hfail⟩
          · rintro ⟨r, hr, hfail⟩
            rcases List.mem_cons.mp hr with he | hm
            · subst he
              simp [configSkipResult] at hfail
            · exact ih.mpr ⟨r, hm, hfail⟩
        · have h3f : needsConfigSkip env s = false := Bool.eq_false_iff.mpr h3
          cases hok : (invokeStep sub s).fst with
          | true =>
            rw [runSteps_exec_ok sub env dur selected skips s rest h1f h2f h3f hok]
            constructor
            · intro hsuc
              obtain ⟨r, hr, hfail⟩ := ih.mp hsuc
              exact ⟨r, List.mem_cons_of_mem _ hr, hfail⟩
            · rintro ⟨r, hr, hfail⟩
              rcases List.mem_cons.mp hr with he | hm
              · subst he
                simp [execResult] at hfail
              · exact ih.mpr ⟨r, hm, hfail⟩
          | false =>
            cases hcrit : s.critical with
            | true =>
              rw [runSteps_exec_fail_crit sub env dur selected skips s rest h1f h2f h3f
                hok hcrit]
              constructor
              · intro _
                exact ⟨execResult s false (invokeStep sub s).snd (dur s), by simp,
                  by simp [execResult]⟩
              · intro _
                rfl
            | false =>
              rw [runSteps_exec_fail_noncrit sub env dur selected skips s rest h1f h2f h3f
                hok hcrit]
              constructor
              · intro _
                exact ⟨execResult s false (invokeStep sub s).snd (dur s), by simp,
                  by simp [execResult]⟩
              · intro _
                rfl

/-- When the critical-failure flag of a run is set, the last recorded step
result is a failure. -/
theorem runSteps_cf_last (sub : List String → Nat → SubOutcome) (env : String → String)
    (dur : Step → Nat) (selected : Option (List String)) (skips : List String) :
    ∀ seq : List Step,
      (runSteps sub env dur selected skips seq).fst.critical_failure = true →
      ∃ r, (runSteps sub env dur selected skips seq).fst.steps.getLast? = some r ∧
        r.status = StepStatus.failed := by
  intro seq
  induction seq with
  | nil => intro h; simp [runSteps] at h
  | cons s rest ih =>
    by_cases h1 : filteredOut selected s = true
    · rw [runSteps_filtered sub env dur selected skips s rest h1]
      exact ih
    · have h1f : filteredOut selected s = false := Bool.eq_false_iff.mpr h1
      by_cases h2 : skips.contains s.name = true
      · rw [runSteps_skip sub env dur selected skips s rest h1f h2]
        intro h
        obtain ⟨r, hlast, hfail⟩ := ih h
        have hne : (runSteps sub env dur selected skips rest).fst.steps ≠ [] := by
          intro h0
          rw [h0] at hlast
          exact Option.noConfusion hlast
        exact ⟨r, (cons_getLast?_eq _ _ hne).trans hlast, hfail⟩
      · have h2f : skips.contains s.name = false := Bool.eq_false_iff.mpr h2
        by_cases h3 : needsConfigSkip env s = true
        · rw [runSteps_config sub env dur selected skips s rest h1f h2f h3]
          intro h
          obtain ⟨r, hlast, hfail⟩ := ih h
          have hne : (runSteps sub env dur selected skips rest).fst.steps ≠ [] := by
            intro h0
            rw [h0] at hlast
            exact Option.noConfusion hlast
          exact ⟨r, (cons_getLast?_eq _ _ hne).trans hlast, hfail⟩
        · have h3f : needsConfigSkip env s = false := Bool.eq_false_iff.mpr h3
          cases hok : (invokeStep sub s).fst with
          | true =>
            rw [runSteps_exec_ok sub env dur selected skips s rest h1f h2f h3f hok]
            intro h
            obtain ⟨r, hlast, hfail⟩ := ih h
            have hne : (runSteps sub env dur selected skips rest).fst.steps ≠ [] := by
              intro h0
              rw [h0] at hlast
              exact Option.noConfusion hlast
            exact ⟨r, (cons_getLast?_eq _ _ hne).trans hlast, hfail⟩
          | false =>
            cases hcrit : s.critical with
            | true =>
              rw [runSteps_exec_fail_crit sub env dur selected skips s rest h1f h2f h3f
                hok hcrit]
              intro _
              exact ⟨execResult s false (invokeStep sub s).snd (dur s), rfl,
                by simp [execResult]⟩
            | false =>
              rw [runSteps_exec_fail_noncrit sub env dur selected skips s rest h1f h2f h3f
                hok hcrit]
              intro h
              obtain ⟨r, hlast, hfail⟩ := ih h
              have hne : (runSteps sub env dur selected skips rest).fst.steps ≠ [] := by
                intro h0
                rw [h0] at hlast
                exact Option.noConfusion hlast
              exact ⟨r, (cons_getLast?_eq _ _ hne).trans hlast, hfail⟩

/-- C4 amended: in every run report, overallSuccess is false exactly when a
recorded step result is failed; and criticalFailure set implies the final
recorded result is a failed (critical) step, after which nothing further is
processed — though the failing step may be the last of the pipeline, in
which case no step is left unrun. -/
theorem report_invariants (sub : List String → Nat → SubOutcome) (env : String → String)
    (dur : Step → Nat) (seq : List Step) (selected : Option (List String))
    (skips : List String) :
    ((run_maintenance_sequence sub env dur seq selected skips).success = false ↔
      ∃ r ∈ (run_maintenance_sequence sub env dur seq selected skips).steps,
        r.status = StepStatus.failed) ∧
    ((run_maintenance_sequence sub env dur seq selected skips).critical_failure = true →
      ∃ r, (run_maintenance_sequence sub env dur seq selected skips).steps.getLast? =
        some r ∧ r.status = StepStatus.failed) :=
  ⟨runSteps_success_iff sub env dur selected skips seq,
   runSteps_cf_last sub env dur selected skips seq⟩

/-- C4 witness: for a one-step pipeline whose critical step fails, the
theorem yields the failed final record. -/
theorem report_invariants_witness :
    ∃ r, (run_maintenance_sequence subAllFail envEmpty durZero [stepCritFail]
      none []).steps.getLast? = some r ∧ r.status = StepStatus.failed :=
  (report_invariants subAllFail envEmpty durZero [stepCritFail] none []).2 (by decide)

/-- C4 counterexample: when the critical failure occurs at the last pipeline
step, criticalFailure is true although every step of the pipeline was
processed (one result for the one step, empty unprocessed suffix), so
criticalFailure does not imply that the sequencer stopped before running
all steps. -/
theorem report_critical_last_step_cex :
    (run_maintenance_sequence subAllFail envEmpty durZero [stepCritFail]
      none []).critical_failure = true ∧
    (run_maintenance_sequence subAllFail envEmpty durZero [stepCritFail]
      none []).steps.length = ([stepCritFail] : List Step).length ∧
    (runSteps subAllFail envEmpty durZero none [] [stepCritFail]).snd = [] := by
  refine ⟨by decide, by decide, by decide⟩

/-- C3: when a critical step fails, the sequencer records its failure, sets
criticalFailure, clears overallSuccess, and stops: the report does not
depend on the steps after the failing one, and for a pipeline of a leading
step, the failing critical step, and any tail, exactly two results are
recorded. -/
theorem critical_failure_stops_sequencer (sub : List String → Nat → SubOutcome)
    (env : String → String) (dur : Step → Nat) (s1 s2 : Step) (post : List Step)
    (h1c : s1.requires_config = none) (h2c : s2.requires_config = none)
    (h1 : ¬ (s1.critical = true ∧ (invokeStep sub s1).fst = false))
    (h2crit : s2.critical = true) (h2fail : (invokeStep sub s2).fst = false) :
    run_maintenance_sequence sub env dur (s1 :: s2 :: post) none [] =
      run_maintenance_sequence sub env dur [s1, s2] none [] ∧
    (run_maintenance_sequence sub env dur (s1 :: s2 :: post) none []).steps.length = 2 ∧
    (run_maintenance_sequence sub env dur (s1 :: s2 :: post) none []).critical_failure =
      true ∧
    (run_maintenance_sequence sub env dur (s1 :: s2 :: post) none []).success = false := by
  have hf1 : filteredOut none s1 = false := rfl
  have hf2 : filteredOut none s2 = false := rfl
  have hs1 : ([] : List String).contains s1.name = false := rfl
  have hs2 : ([] : List String).contains s2.name = false := rfl
  have hc1 : needsConfigSkip env s1 = false := by simp [needsConfigSkip, h1c]
  have hc2 : needsConfigSkip env s2 = false := by simp [needsConfigSkip, h2c]
  have h2eq : ∀ tail : List Step, runSteps sub env dur none [] (s2 :: tail) =
      ({ steps := [execResult s2 false (invokeStep sub s2).snd (dur s2)]
         success := false, critical_failure := true }, tail) := by
    intro tail
    exact runSteps_exec_fail_crit sub env dur none [] s2 tail hf2 hs2 hc2 h2fail h2crit
  cases hok1 : (invokeStep sub s1).fst with
  | true =>
    have eL := runSteps_exec_ok sub env dur none [] s1 (s2 :: post) hf1 hs1 hc1 hok1
    rw [h2eq post] at eL
    have eR := runSteps_exec_ok sub env dur none [] s1 [s2] hf1 hs1 hc1 hok1
    rw [h2eq []] at eR
    refine ⟨?_, ?_, ?_, ?_⟩ <;> simp only [run_maintenance_sequence] <;> rw [eL]
    · rw [eR]
    · rfl
  | false =>
    have hcrit1 : s1.critical = false := by
      cases hcs : s1.critical with
      | false => rfl
      | true => exact absurd ⟨hcs, hok1⟩ h1
    have eL := runSteps_exec_fail_noncrit sub env dur none [] s1 (s2 :: post) hf1 hs1 hc1
      hok1 hcrit1
    rw [h2eq post] at eL
    have eR := runSteps_exec_fail_noncrit sub env dur none [] s1 [s2] hf1 hs1 hc1
      hok1 hcrit1
    rw [h2eq []] at eR
    refine ⟨?_, ?_, ?_, ?_⟩ <;> simp only [run_maintenance_sequence] <;> rw [eL]
    · rw [eR]
    · rfl

/-- C3 witness: the concrete three-step pipeline where only module m2 fails
and step S2 is critical yields exactly two recorded results, a set
criticalFailure, a cleared overallSuccess, and a report identical to the
two-step run. -/
theorem critical_failure_stops_sequencer_witness :
    run_maintenance_sequence subFailM2 envEmpty durZero
      (stepOkM1 :: stepCritM2 :: [stepTailM3]) none [] =
      run_maintenance_sequence subFailM2 envEmpty durZero [stepOkM1, stepCritM2]
        none [] ∧
    (run_maintenance_sequence subFailM2 envEmpty durZero
      (stepOkM1 :: stepCritM2 :: [stepTailM3]) none []).steps.length = 2 ∧
    (run_maintenance_sequence subFailM2 envEmpty durZero
      (stepOkM1 :: stepCritM2 :: [stepTailM3]) none []).critical_failure = true ∧
    (run_maintenance_sequence subFailM2 envEmpty durZero
      (stepOkM1 :: stepCritM2 :: [stepTailM3]) none []).success = false :=
  critical_failure_stops_sequencer subFailM2 envEmpty durZero stepOkM1 stepCritM2
    [stepTailM3] rfl rfl (by decide) rfl (by decide)

/-- Run reports agree for two selection arguments that filter exactly the
same steps. -/
theorem runSteps_selected_congr (sub : List String → Nat → SubOutcome)
    (env : String → String) (dur : Step → Nat) (skips : List String)
    (sel1 sel2 : Option (List String))
    (hsel : ∀ s : Step, filteredOut sel1 s = filteredOut sel2 s) :
    ∀ seq : List Step,
      (runSteps sub env dur sel1 skips seq).fst =
        (runSteps sub env dur sel2 skips seq).fst := by
  intro seq
  induction seq with
  | nil => rfl
  | cons s rest ih =>
    by_cases h1 : filteredOut sel1 s = true
    · rw [runSteps_filtered sub env dur sel1 skips s rest h1,
        runSteps_filtered sub env dur sel2 skips s rest (by rw [← hsel s]; exact h1)]
      exact ih
    · have h1f : filteredOut sel1 s = false := Bool.eq_false_iff.mpr h1
      have h2f : filteredOut sel2 s = false := by rw [← hsel s]; exact h1f
      by_cases h2 : skips.contains s.name = true
      · rw [runSteps_skip sub env dur sel1 skips s rest h1f h2,
          runSteps_skip sub env dur sel2 skips s rest h2f h2]
        simp only []
        rw [ih]
      · have h2s : skips.contains s.name = false := Bool.eq_false_iff.mpr h2
        by_cases h3 : needsConfigSkip env s = true
        · rw [runSteps_config sub env dur sel1 skips s rest h1f h2s h3,
            runSteps_config sub env dur sel2 skips s rest h2f h2s h3]
          simp only []
          rw [ih]
        · have h3f : needsConfigSkip env s = false := Bool.eq_false_iff.mpr h3
          cases hok : (invokeStep sub s).fst with
          | true =>
            rw [runSteps_exec_ok sub env dur sel1 skips s rest h1f h2s h3f hok,
              runSteps_exec_ok sub env dur sel2 skips s rest h2f h2s h3f hok]
            simp only []
            rw [ih]
          | false =>
            cases hcrit : s.critical with
            | true =>
              rw [runSteps_exec_fail_crit sub env dur sel1 skips s rest h1f h2s h3f
                hok hcrit,
                runSteps_exec_fail_crit sub env dur sel2 skips s rest h2f h2s h3f
                  hok hcrit]
            | false =>
              rw [runSteps_exec_fail_noncrit sub env dur sel1 skips s rest h1f h2s h3f
                hok hcrit,
                runSteps_exec_fail_noncrit sub env dur sel2 skips s rest h2f h2s h3f
                  hok hcrit]
              simp only []
              rw [ih]

/-- C8 amended: when a non-empty selection list is provided, steps whose
names are outside it are dropped from the run entirely (the report equals
the report of the pre-filtered pipeline, with nothing recorded for them);
but a provided EMPTY selection list is falsy in the source guard and
behaves exactly like no selection at all — every step runs, none is
dropped. -/
theorem selected_filtering (sub : List String → Nat → SubOutcome) (env : String → String)
    (dur : Step → Nat) :
    (∀ (seq : List Step) (skips sel : List String), sel ≠ [] →
      run_maintenance_sequence sub env dur seq (some sel) skips =
        run_maintenance_sequence sub env dur
          (seq.filter (fun s => sel.contains s.name)) (some sel) skips) ∧
    (∀ (seq : List Step) (skips : List String),
      run_maintenance_sequence sub env dur seq (some []) skips =
        run_maintenance_sequence sub env dur seq none skips) := by
  constructor
  · intro seq skips sel hsel
    simp only [run_maintenance_sequence]
    induction seq with
    | nil => rfl
    | cons s rest ih =>
      by_cases hm : sel.contains s.name = true
      · have hmem : s.name ∈ sel := List.elem_iff.mp hm
        have hfilter : (s :: rest).filter (fun u => sel.contains u.name) =
            s :: rest.filter (fun u => sel.contains u.name) := by
          simp [List.filter_cons, hmem]
        rw [hfilter]
        have hf : filteredOut (some sel) s = false := by
          cases sel with
          | nil => exact absurd rfl hsel
          | cons a t => simp [filteredOut, providedNonempty, List.elem_iff.mp hm]
        by_cases h2 : skips.contains s.name = true
        · rw [runSteps_skip sub env dur (some sel) skips s rest hf h2,
            runSteps_skip sub env dur (some sel) skips s
              (rest.filter (fun u => sel.contains u.name)) hf h2]
          simp only []
          rw [ih]
        · have h2s : skips.contains s.name = false := Bool.eq_false_iff.mpr h2
          by_cases h3 : needsConfigSkip env s = true
          · rw [runSteps_config sub env dur (some sel) skips s rest hf h2s h3,
              runSteps_config sub env dur (some sel) skips s
                (rest.filter (fun u => sel.contains u.name)) hf h2s h3]
            simp only []
            rw [ih]
          · have h3f : needsConfigSkip env s = false := Bool.eq_false_iff.mpr h3
            cases hok : (invokeStep sub s).fst with
            | true =>
              rw [runSteps_exec_ok sub env dur (some sel) skips s rest hf h2s h3f hok,
                runSteps_exec_ok sub env dur (some sel) skips s
                  (rest.filter (fun u => sel.contains u.name)) hf h2s h3f hok]
              simp only []
              rw [ih]
            | false =>
              cases hcrit : s.critical with
              | true =>
                rw [runSteps_exec_fail_crit sub env dur (some sel) skips s rest hf h2s
                  h3f hok hcrit,
                  runSteps_exec_fail_crit sub env dur (some sel) skips s
                    (rest.filter (fun u => sel.contains u.name)) hf h2s h3f hok hcrit]
              | false =>
                rw [runSteps_exec_fail_noncrit sub env dur (some sel) skips s rest hf
                  h2s h3f hok hcrit,
                  runSteps_exec_fail_noncrit sub env dur (some sel) skips s
                    (rest.filter (fun u => sel.contains u.name)) hf h2s h3f hok hcrit]
                simp only []
                rw [ih]
      · have hmf : sel.contains s.name = false := Bool.eq_false_iff.mpr hm
        have hnm : ¬ s.name ∈ sel := by
          intro hmem2
          exact hm (List.elem_iff.mpr hmem2)
        have hfilter : (s :: rest).filter (fun u => sel.contains u.name) =
            rest.filter (fun u => sel.contains u.name) := by
          simp [List.filter_cons, hnm]
        have hf : filteredOut (some sel) s = true := by
          cases sel with
          | nil => exact absurd rfl hsel
          | cons a t =>
            have hnm2 : ¬ s.name = a ∧ ¬ s.name ∈ t := by
              rw [List.mem_cons, not_or] at hnm
              exact hnm
            simp [filteredOut, providedNonempty, hnm2.1, hnm2.2]
        rw [hfilter, runSteps_filtered sub env dur (some sel) skips s rest hf]
        exact ih
  · intro seq skips
    exact runSteps_selected_congr sub env dur skips (some []) none (fun _ => rfl) seq

/-- C8 amendment witness: with selection list containing only A, the
two-step pipeline produces the same report as its pre-filtered one-step
form. -/
theorem selected_filtering_witness :
    run_maintenance_sequence subAllOk envEmpty durZero [stepA, stepB] (some ["A"]) [] =
      run_maintenance_sequence subAllOk envEmpty durZero
        ([stepA, stepB].filter (fun s => ["A"].contains s.name)) (some ["A"]) [] :=
  (selected_filtering subAllOk envEmpty durZero).1 [stepA, stepB] [] ["A"]
    (by decide)

/-- C8 counterexample: with a provided EMPTY selection set the claim says no
step is emitted, but the source guard treats an empty list as falsy, so the
single step runs and one result is recorded. -/
theorem empty_selected_runs_all_cex :
    (run_maintenance_sequence subAllOk envEmpty durZero [stepA]
      (some []) []).steps.length = 1 ∧
    (run_maintenance_sequence subAllOk envEmpty durZero [stepA]
      (some []) []).steps ≠ [] := by
  refine ⟨by decide, by decide⟩

/-- C9 amended: a step whose name is in the skip set (and not filtered out)
is recorded as a StepResult with status skipped, duration 0, no reason
field and no output preview, and the run continues with the remaining steps
without invoking the step; the source records no reason string for manual
skips. -/
theorem manual_skip_records (sub : List String → Nat → SubOutcome) (env : String → String)
    (dur : Step → Nat) (selected : Option (List String)) (skips : List String)
    (s : Step) (rest : List Step) (hf : filteredOut selected s = false)
    (hs : skips.contains s.name = true) :
    runSteps sub env dur selected skips (s :: rest) =
      ({ steps :=
           { name := s.name, status := StepStatus.skipped, duration := some 0
             reason := none, output_preview := none } ::
             (runSteps sub env dur selected skips rest).fst.steps
         success := (runSteps sub env dur selected skips rest).fst.success
         critical_failure :=
           (runSteps sub env dur selected skips rest).fst.critical_failure },
       (runSteps sub env dur selected skips rest).snd) :=
  runSteps_skip sub env dur selected skips s rest hf hs

/-- C9 amendment witness: skipping the single step A records exactly the
reason-free skip result. -/
theorem manual_skip_records_witness :
    runSteps subAllOk envEmpty durZero none ["A"] [stepA] =
      ({ steps :=
           { name := stepA.name, status := StepStatus.skipped, duration := some 0
             reason := none, output_preview := none } ::
             (runSteps subAllOk envEmpty durZero none ["A"] []).fst.steps
         success := (runSteps subAllOk envEmpty durZero none ["A"] []).fst.success
         critical_failure :=
           (runSteps subAllOk envEmpty durZero none ["A"] []).fst.critical_failure },
       (runSteps subAllOk envEmpty durZero none ["A"] []).snd) :=
  manual_skip_records subAllOk envEmpty durZero none ["A"] stepA [] rfl rfl

/-- C9 counterexample: the recorded result for a manually skipped step
carries no reason field at all, contradicting the claimed reason string
"manually skipped". -/
theorem manual_skip_reason_cex :
    (run_maintenance_sequence subAllOk envEmpty durZero [stepA] none ["A"]).steps =
      [ { name := "A", status := StepStatus.skipped, duration := some 0
          reason := none, output_preview := none } ] ∧
    (run_maintenance_sequence subAllOk envEmpty durZero [stepA] none
      ["A"]).steps.map (fun r => r.reason) ≠ [some "manually skipped"] := by
  refine ⟨by decide, by decide⟩

/-- C7 amended: every step invocation passes the fixed 3600 second timeout
to the subprocess layer — there is no longer 18000 second timeout anywhere —
and a timed-out invocation is returned as an ordinary failure carrying the
fixed reason string "Script timed out after 1 hour". -/
theorem step_timeout_semantics :
    (∀ (sub : List String → Nat → SubOutcome) (m : String) (args : List String),
      sub ("python" :: m :: args) SUBPROCESS_TIMEOUT = SubOutcome.timedOut →
      run_module sub m args = (false, "Script timed out after 1 hour")) ∧
    (∀ (sub : List String → Nat → SubOutcome) (s : String),
      sub ["python", s] SUBPROCESS_TIMEOUT = SubOutcome.timedOut →
      run_script sub s = (false, "Script timed out after 1 hour")) ∧
    (∀ (sub sub2 : List String → Nat → SubOutcome) (m : String) (args : List String),
      (∀ c, sub c SUBPROCESS_TIMEOUT = sub2 c SUBPROCESS_TIMEOUT) →
      run_module sub m args = run_module sub2 m args) ∧
    (∀ (sub sub2 : List String → Nat → SubOutcome) (s : String),
      (∀ c, sub c SUBPROCESS_TIMEOUT = sub2 c SUBPROCESS_TIMEOUT) →
      run_script sub s = run_script sub2 s) := by
  refine ⟨?_, ?_, ?_, ?_⟩
  · intro sub m args h
    rw [run_module, h]
  · intro sub s h
    rw [run_script, h]
  · intro sub sub2 m args h
    rw [run_module, run_module, h]
  · intro sub sub2 s h
    rw [run_script, run_script, h]

/-- C7 witness: under the all-timeout oracle both runners return the fixed
timeout failure. -/
theorem step_timeout_semantics_witness :
    run_module subAllTimeout "src.version_management.ReconcilePostVersions" [] =
      (false, "Script timed out after 1 hour") ∧
    run_script subAllTimeout "CompressRebuildAnalyze.py" =
      (false, "Script timed out after 1 hour") :=
  ⟨step_timeout_semantics.1 subAllTimeout
      "src.version_management.ReconcilePostVersions" [] rfl,
   step_timeout_semantics.2.1 subAllTimeout "CompressRebuildAnalyze.py" rfl⟩

/-- C7 counterexample: probing oracles show that every invocation — even for
the long-running compress and portal steps — is handed exactly 3600
seconds, never 18000. -/
theorem subprocess_timeout_cex :
    run_module subOnly18000 "src.server_portal.PortalBackup" [] =
      (false, "timeout-not-18000") ∧
    run_script subOnly18000 "CompressRebuildAnalyze.py" =
      (false, "timeout-not-18000") ∧
    run_module subDetect3600 "src.version_management.ReconcilePostVersions" [] =
      (false, "timeout-3600") ∧
    run_script subDetect3600 "CompressRebuildAnalyze.py" =
      (false, "timeout-3600") := by
  refine ⟨by decide, by decide, by decide, by decide⟩
